import Mathlib

/-!
Verification of the `.hyp` script extractor (`src/app/page.tsx`).

The development shallowly embeds the container decoder `extractJsFromHyp`,
the filename sanitizer `cleanFilename`, the timestamp helper `getTimestamp`
and the batch orchestrator `processFiles` as executable Lean functions over
byte lists (`List Nat`) and character lists (`List Char`).

Modelling conventions:
* Byte buffers are `List Nat`; text is `List Char`.
* `TextDecoder` (non-fatal UTF-8 with U+FFFD replacement and BOM removal)
  is embedded as `textDecode`.
* `JSON.parse` is embedded as `jsonParse`, a fuel-bounded recursive-descent
  parser for JSON values.  Numbers are modelled as integers (the container
  format declares `size` as an unsigned integer); `\uXXXX` escapes map to
  the corresponding code point.  Accessing `header.assets` and the per-asset
  fields is embedded as `decodeHeader`/`asAsset`, which require the shape
  the decoder actually consumes: an object with an `assets` array of
  objects carrying a string `type`, a string `url` and a non-negative
  integer `size`.
* JavaScript exceptions (DataView range errors, JSON syntax errors, missing
  `assets`) become `Option.none`; the try/catch in `processFiles` becomes
  the `Outcome.decodeError` result.
* Wall-clock time is passed explicitly as a `Clock` record holding the
  displayed components (month already 1-based, as after `getMonth() + 1`).
-/

/-! ### Filename sanitizer (`cleanFilename`) -/

/-- Characters matched by the JavaScript regex class `\s`. -/
def isJsSpace (c : Char) : Bool :=
  let n := c.toNat
  n == 32 || n == 9 || n == 10 || n == 11 || n == 12 || n == 13 ||
  n == 0xA0 || n == 0x1680 || (decide (0x2000 ≤ n) && decide (n ≤ 0x200A)) ||
  n == 0x2028 || n == 0x2029 || n == 0x202F || n == 0x205F || n == 0x3000 || n == 0xFEFF

/-- Step 1 of `cleanFilename`: `replace(/\s+/g, '_')` — every maximal run of
whitespace becomes a single underscore. -/
def collapseWs : List Char → List Char
  | [] => []
  | c :: cs =>
    if isJsSpace c then
      match cs with
      | c2 :: _ => if isJsSpace c2 then collapseWs cs else '_' :: collapseWs cs
      | [] => ['_']
    else c :: collapseWs cs

/-- Helper for step 2: a completed maximal digit run is dropped when its
length is at least 8, kept otherwise. -/
def emitRun (run : List Char) : List Char := if 8 ≤ run.length then [] else run

/-- Worker for step 2 of `cleanFilename`: `replace(/\d{8,}/g, '')`.  The
first argument accumulates the current maximal digit run. -/
def stripDigitsGo : List Char → List Char → List Char
  | run, [] => emitRun run
  | run, c :: cs =>
    if c.isDigit then stripDigitsGo (run ++ [c]) cs
    else emitRun run ++ c :: stripDigitsGo [] cs

/-- Step 2 of `cleanFilename`: remove every maximal run of 8 or more
decimal digits. -/
def stripDigits (s : List Char) : List Char := stripDigitsGo [] s

/-- Step 3 of `cleanFilename`: `replace(/__+/g, '_')` — every maximal run of
two or more underscores becomes a single underscore. -/
def collapseUnd : List Char → List Char
  | [] => []
  | c :: cs =>
    if c = '_' then
      match cs with
      | c2 :: _ => if c2 = '_' then collapseUnd cs else '_' :: collapseUnd cs
      | [] => ['_']
    else c :: collapseUnd cs

/-- Underscore test used by step 4 of `cleanFilename`. -/
def isUnd (c : Char) : Bool := c == '_'

/-- Removes the trailing run of underscores (the `_+$` half of step 4). -/
def dropTrail : List Char → List Char
  | [] => []
  | c :: cs =>
    match dropTrail cs with
    | [] => if c = '_' then [] else [c]
    | r => c :: r

/-- The filename sanitizer `cleanFilename` from the source: collapse
whitespace to underscores, delete digit runs of length at least 8, collapse
multiple underscores, and strip leading and trailing underscores. -/
def cleanFilename (s : List Char) : List Char :=
  dropTrail ((collapseUnd (stripDigits (collapseWs s))).dropWhile isUnd)

/-! ### `TextDecoder` (WHATWG UTF-8 decode with replacement) -/

/-- The U+FFFD replacement character. -/
def repl : Char := Char.ofNat 0xFFFD

/-- Lower boundary of the first continuation byte of a three-byte sequence. -/
def lower3 (b : Nat) : Nat := if b = 0xE0 then 0xA0 else 0x80

/-- Upper boundary of the first continuation byte of a three-byte sequence. -/
def upper3 (b : Nat) : Nat := if b = 0xED then 0x9F else 0xBF

/-- Lower boundary of the first continuation byte of a four-byte sequence. -/
def lower4 (b : Nat) : Nat := if b = 0xF0 then 0x90 else 0x80

/-- Upper boundary of the first continuation byte of a four-byte sequence. -/
def upper4 (b : Nat) : Nat := if b = 0xF4 then 0x8F else 0xBF

/-- Fuel-bounded worker for the WHATWG UTF-8 decoder with replacement: an
invalid byte emits U+FFFD and decoding resumes at the next byte (maximal
subpart policy); a truncated final sequence emits a single U+FFFD.  The
fuel only makes the recursion structural; `utf8Decode` supplies enough fuel
that it never runs out. -/
def utf8Go : Nat → List Nat → List Char
  | 0, _ => []
  | _, [] => []
  | fuel + 1, b :: bs =>
    if b ≤ 0x7F then Char.ofNat b :: utf8Go fuel bs
    else if 0xC2 ≤ b ∧ b ≤ 0xDF then
      match bs with
      | [] => [repl]
      | b1 :: bs1 =>
        if 0x80 ≤ b1 ∧ b1 ≤ 0xBF then
          Char.ofNat ((b - 0xC0) * 0x40 + (b1 - 0x80)) :: utf8Go fuel bs1
        else repl :: utf8Go fuel (b1 :: bs1)
    else if 0xE0 ≤ b ∧ b ≤ 0xEF then
      match bs with
      | [] => [repl]
      | b1 :: bs1 =>
        if lower3 b ≤ b1 ∧ b1 ≤ upper3 b then
          match bs1 with
          | [] => [repl]
          | b2 :: bs2 =>
            if 0x80 ≤ b2 ∧ b2 ≤ 0xBF then
              Char.ofNat ((b - 0xE0) * 0x1000 + (b1 - 0x80) * 0x40 + (b2 - 0x80)) :: utf8Go fuel bs2
            else repl :: utf8Go fuel (b2 :: bs2)
        else repl :: utf8Go fuel (b1 :: bs1)
    else if 0xF0 ≤ b ∧ b ≤ 0xF4 then
      match bs with
      | [] => [repl]
      | b1 :: bs1 =>
        if lower4 b ≤ b1 ∧ b1 ≤ upper4 b then
          match bs1 with
          | [] => [repl]
          | b2 :: bs2 =>
            if 0x80 ≤ b2 ∧ b2 ≤ 0xBF then
              match bs2 with
              | [] => [repl]
              | b3 :: bs3 =>
                if 0x80 ≤ b3 ∧ b3 ≤ 0xBF then
                  Char.ofNat ((b - 0xF0) * 0x40000 + (b1 - 0x80) * 0x1000 +
                    (b2 - 0x80) * 0x40 + (b3 - 0x80)) :: utf8Go fuel bs3
                else repl :: utf8Go fuel (b3 :: bs3)
            else repl :: utf8Go fuel (b2 :: bs2)
        else repl :: utf8Go fuel (b1 :: bs1)
    else repl :: utf8Go fuel bs

/-- UTF-8 decoding with replacement, as performed by a default
`TextDecoder` before BOM handling. -/
def utf8Decode (bs : List Nat) : List Char := utf8Go (bs.length + 1) bs

/-- `new TextDecoder().decode(...)`: UTF-8 decode with replacement, removing
a leading byte-order mark when present. -/
def textDecode : List Nat → List Char
  | 0xEF :: 0xBB :: 0xBF :: rest => utf8Decode rest
  | bs => utf8Decode bs

/-! ### `JSON.parse` -/

/-- JSON values.  Numbers are modelled as integers; see the header comment. -/
inductive JVal where
  | jnull : JVal
  | jbool : Bool → JVal
  | jnum : Int → JVal
  | jstr : List Char → JVal
  | jarr : List JVal → JVal
  | jobj : List (List Char × JVal) → JVal
deriving Repr

/-- JSON insignificant whitespace. -/
def isJsonWs (c : Char) : Bool := c == ' ' || c == '\t' || c == '\n' || c == '\r'

/-- Skips JSON whitespace. -/
def skipWs (s : List Char) : List Char := s.dropWhile isJsonWs

/-- Value of a hexadecimal digit. -/
def hexVal (c : Char) : Option Nat :=
  if '0' ≤ c ∧ c ≤ '9' then some (c.toNat - 48)
  else if 'a' ≤ c ∧ c ≤ 'f' then some (c.toNat - 87)
  else if 'A' ≤ c ∧ c ≤ 'F' then some (c.toNat - 55)
  else none

/-- Parses the body of a JSON string (the opening quote already consumed),
returning the decoded characters and the remaining input. -/
def parseStr : List Char → Option (List Char × List Char)
  | [] => none
  | c :: rest =>
    if c = '"' then some ([], rest)
    else if c = '\\' then
      match rest with
      | [] => none
      | e :: rest2 =>
        if e = 'u' then
          match rest2 with
          | h1 :: h2 :: h3 :: h4 :: rest3 =>
            match hexVal h1, hexVal h2, hexVal h3, hexVal h4 with
            | some v1, some v2, some v3, some v4 =>
              (parseStr rest3).map
                (fun p => (Char.ofNat (((v1 * 16 + v2) * 16 + v3) * 16 + v4) :: p.1, p.2))
            | _, _, _, _ => none
          | _ => none
        else
          match (if e = '"' then some '"'
                 else if e = '\\' then some '\\'
                 else if e = '/' then some '/'
                 else if e = 'b' then some (Char.ofNat 8)
                 else if e = 'f' then some (Char.ofNat 12)
                 else if e = 'n' then some '\n'
                 else if e = 'r' then some '\r'
                 else if e = 't' then some '\t'
                 else none) with
          | some d => (parseStr rest2).map (fun p => (d :: p.1, p.2))
          | none => none
    else if c.toNat < 0x20 then none
    else (parseStr rest).map (fun p => (c :: p.1, p.2))

/-- Decimal digits to a natural number. -/
def digitsToNat (ds : List Char) : Nat := ds.foldl (fun a c => a * 10 + (c.toNat - 48)) 0

/-- Applies an optional minus sign. -/
def mkInt (neg : Bool) (n : Nat) : Int := if neg then -(n : Int) else (n : Int)

/-- After the integer part of a JSON number, a fraction or exponent would
follow; the embedding restricts numbers to integers and rejects those. -/
def numOk (r : List Char) : Bool :=
  match r with
  | [] => true
  | c :: _ => !(c == '.' || c == 'e' || c == 'E')

/-- Parses the digits of a JSON number after the optional minus sign
(`0`, or a nonzero digit followed by digits; no leading zeros). -/
def parseNumBody (neg : Bool) : List Char → Option (Int × List Char)
  | [] => none
  | d :: rest =>
    if d = '0' then
      match rest with
      | c :: _ => if c.isDigit then none else if numOk rest then some (mkInt neg 0, rest) else none
      | [] => some (mkInt neg 0, [])
    else if d.isDigit then
      let ds := d :: rest.takeWhile Char.isDigit
      let r := rest.dropWhile Char.isDigit
      if numOk r then some (mkInt neg (digitsToNat ds), r) else none
    else none

/-- Parses a JSON number (integer form). -/
def parseNum : List Char → Option (Int × List Char)
  | '-' :: rest => parseNumBody true rest
  | s => parseNumBody false s

mutual
/-- Fuel-bounded recursive-descent parser for one JSON value; returns the
value and the remaining input.  `jsonParse` supplies enough fuel. -/
def parseVal : Nat → List Char → Option (JVal × List Char)
  | 0, _ => none
  | fuel + 1, s =>
    match skipWs s with
    | [] => none
    | c :: rest =>
      if c = '\x7b' then
        match skipWs rest with
        | '\x7d' :: rest2 => some (JVal.jobj [], rest2)
        | _ => match parseMembers fuel rest with
               | some (ms, r) => some (JVal.jobj ms, r)
               | none => none
      else if c = '[' then
        match skipWs rest with
        | ']' :: rest2 => some (JVal.jarr [], rest2)
        | _ => match parseElems fuel rest with
               | some (es, r) => some (JVal.jarr es, r)
               | none => none
      else if c = '"' then
        match parseStr rest with
        | some (str, r) => some (JVal.jstr str, r)
        | none => none
      else if c = 't' then
        match rest with
        | 'r' :: 'u' :: 'e' :: r => some (JVal.jbool true, r)
        | _ => none
      else if c = 'f' then
        match rest with
        | 'a' :: 'l' :: 's' :: 'e' :: r => some (JVal.jbool false, r)
        | _ => none
      else if c = 'n' then
        match rest with
        | 'u' :: 'l' :: 'l' :: r => some (JVal.jnull, r)
        | _ => none
      else
        match parseNum (c :: rest) with
        | some (n, r) => some (JVal.jnum n, r)
        | none => none

/-- Parses the elements of a non-empty JSON array up to the closing
bracket. -/
def parseElems : Nat → List Char → Option (List JVal × List Char)
  | 0, _ => none
  | fuel + 1, s =>
    match parseVal fuel s with
    | some (v, r) =>
      match skipWs r with
      | ',' :: r2 =>
        match parseElems fuel r2 with
        | some (vs, r3) => some (v :: vs, r3)
        | none => none
      | ']' :: r2 => some ([v], r2)
      | _ => none
    | none => none

/-- Parses the members of a non-empty JSON object up to the closing
brace. -/
def parseMembers : Nat → List Char → Option (List (List Char × JVal) × List Char)
  | 0, _ => none
  | fuel + 1, s =>
    match skipWs s with
    | '"' :: r =>
      match parseStr r with
      | some (k, r1) =>
        match skipWs r1 with
        | ':' :: r2 =>
          match parseVal fuel r2 with
          | some (v, r3) =>
            match skipWs r3 with
            | ',' :: r4 =>
              match parseMembers fuel r4 with
              | some (ms, r5) => some ((k, v) :: ms, r5)
              | none => none
            | '\x7d' :: r4 => some ([(k, v)], r4)
            | _ => none
          | none => none
        | _ => none
      | none => none
    | _ => none
end

/-- `JSON.parse`: parses a complete JSON document (whitespace allowed on
both sides), failing on trailing garbage. -/
def jsonParse (s : List Char) : Option JVal :=
  match parseVal (s.length + 1) s with
  | some (v, r) => if skipWs r = [] then some v else none
  | none => none

/-! ### Container decoder (`extractJsFromHyp`) -/

/-- One entry of the header's `assets` sequence, as consumed by the
decoder: a type tag, a slash-separated url, and the payload byte length. -/
structure AssetInfo where
  type : List Char
  url : List Char
  size : Nat
deriving DecidableEq, Repr

/-- Property lookup on a parsed JSON object.  JavaScript object literals
keep the last occurrence of a duplicated key, so the search prefers later
fields. -/
def jlookup : List (List Char × JVal) → List Char → Option JVal
  | [], _ => none
  | f :: fs, k =>
    match jlookup fs k with
    | some v => some v
    | none => if f.1 = k then some f.2 else none

/-- Reads one asset descriptor from a parsed JSON value: an object with a
string `type`, a string `url` and a non-negative integer `size`. -/
def asAsset : JVal → Option AssetInfo
  | JVal.jobj fs =>
    match jlookup fs "type".data, jlookup fs "url".data, jlookup fs "size".data with
    | some (JVal.jstr t), some (JVal.jstr u), some (JVal.jnum n) =>
      if 0 ≤ n then some ⟨t, u, n.toNat⟩ else none
    | _, _, _ => none
  | _ => none

/-- Parses the header text and extracts `header.assets`, the ordered list
of asset descriptors; any failure is a decode failure of the container. -/
def decodeHeader (text : List Char) : Option (List AssetInfo) :=
  match jsonParse text with
  | some (JVal.jobj fs) =>
    match jlookup fs "assets".data with
    | some (JVal.jarr xs) => xs.mapM asAsset
    | _ => none
  | _ => none

/-- `view.getUint32(0, true)`: the first four bytes as an unsigned 32-bit
little-endian integer; fails (RangeError) when fewer than four bytes are
present. -/
def readUint32LE : List Nat → Option Nat
  | b0 :: b1 :: b2 :: b3 :: _ => some (b0 + b1 * 256 + b2 * 65536 + b3 * 16777216)
  | _ => none

/-- `buffer.slice(start, stop)` for `start ≤ stop`: the bytes from `start`
(inclusive) to `stop` (exclusive), clamped to the buffer's length. -/
def sliceBytes (buf : List Nat) (start stop : Nat) : List Nat :=
  (buf.drop start).take (stop - start)

/-- The literal `'script'` type tag. -/
def scriptTag : List Char := "script".data

/-- The characters after the last `/` of a url (the whole url when it has
no `/`; empty when the url ends in `/` or is empty), matching
`url.split('/').pop()`. -/
def lastSeg (s : List Char) : List Char := (s.reverse.takeWhile (fun c => c != '/')).reverse

/-- The raw filename of a script asset: the last path segment of its url,
or `script_<ordinal>.js` when that segment is empty, where `ordinal` counts
the script assets already found in this container. -/
def jsFilename (url : List Char) (ordinal : Nat) : List Char :=
  let seg := lastSeg url
  if seg = [] then "script_".data ++ Nat.toDigits 10 ordinal ++ ".js".data else seg

/-- The decoder's unit of output: a sanitized script name and the decoded
text content. -/
structure ExtractedScript where
  name : List Char
  content : List Char
deriving DecidableEq, Repr

/-- The sequential payload scan of `extractJsFromHyp`: walks the asset
descriptors in header order, keeping a byte cursor (`position`) and the
count of scripts found so far; a script asset contributes the decoded slice
`[position, position + size)`, and every asset advances the cursor by its
declared size. -/
def scanAssets (buffer : List Nat) : Nat → Nat → List AssetInfo → List ExtractedScript
  | _, _, [] => []
  | position, count, a :: rest =>
    if a.type = scriptTag then
      ⟨cleanFilename (jsFilename a.url count),
        textDecode (sliceBytes buffer position (position + a.size))⟩ ::
      scanAssets buffer (position + a.size) (count + 1) rest
    else scanAssets buffer (position + a.size) count rest

/-- The container decoder `extractJsFromHyp`: reads the 4-byte header
length, parses the header slice as JSON, and scans the payloads; `none`
models a thrown exception. -/
def extractJsFromHyp (buffer : List Nat) : Option (List ExtractedScript) :=
  match readUint32LE buffer with
  | none => none
  | some headerSize =>
    match decodeHeader (textDecode (sliceBytes buffer 4 (4 + headerSize))) with
    | none => none
    | some assets => some (scanAssets buffer (4 + headerSize) 0 assets)

/-! ### Synthetic containers -/

/-- The four little-endian bytes of a 32-bit value. -/
def u32le (n : Nat) : List Nat :=
  [n % 256, n / 256 % 256, n / 65536 % 256, n / 16777216 % 256]

/-- A well-formed synthetic container: 4-byte little-endian header length,
the header bytes, then the concatenated payloads. -/
def buildContainer (headerBytes : List Nat) (payloads : List (List Nat)) : List Nat :=
  u32le headerBytes.length ++ headerBytes ++ payloads.flatten

/-- The scripts a well-formed synthetic container should decode to: one
`ExtractedScript` per script-typed descriptor, whose content is the decoded
text of that descriptor's own payload. -/
def expectedScripts : Nat → List AssetInfo → List (List Nat) → List ExtractedScript
  | _, [], _ => []
  | _, _ :: _, [] => []
  | count, a :: assets, p :: ps =>
    if a.type = scriptTag then
      ⟨cleanFilename (jsFilename a.url count), textDecode p⟩ :: expectedScripts (count + 1) assets ps
    else expectedScripts count assets ps

/-! ### Orchestrator (`processFiles`) -/

/-- ASCII lower-casing, the effective case folding of the `/i` regex flag
for the ASCII patterns `\.hyp$` and `\.js$`. -/
def asciiLower (c : Char) : Char :=
  if 'A' ≤ c ∧ c ≤ 'Z' then Char.ofNat (c.toNat + 32) else c

/-- The suffix stripped from container names. -/
def hypSuffix : List Char := ".hyp".data

/-- The suffix stripped from script names. -/
def jsSuffix : List Char := ".js".data

/-- `name.replace(/<suf>$/i, "")` for a lower-case ASCII literal suffix:
removes the final `suf.length` characters when they case-insensitively
equal `suf`. -/
def stripSuffixCI (suf s : List Char) : List Char :=
  if suf.length ≤ s.length ∧ (s.drop (s.length - suf.length)).map asciiLower = suf then
    s.take (s.length - suf.length)
  else s

/-- One row of the orchestrator's accumulated output. -/
structure NamedScript where
  name : List Char
  content : List Char
deriving DecidableEq, Repr

/-- The output name `${baseName}_${scriptName}.js`: the sanitized container
name without its `.hyp` suffix, an underscore, and the script's (already
sanitized) name without its `.js` suffix, followed by `.js`. -/
def uniqueName (fileName scriptName : List Char) : List Char :=
  cleanFilename (stripSuffixCI hypSuffix fileName) ++
    '_' :: (stripSuffixCI jsSuffix scriptName ++ jsSuffix)

/-- The rows a single container contributes to the batch output. -/
def entriesOfFile (fileName : List Char) (scripts : List ExtractedScript) : List NamedScript :=
  scripts.map (fun s => ⟨uniqueName fileName s.name, s.content⟩)

/-- The accumulation loop of `processFiles` over `(name, buffer)` pairs:
decodes each container in order and concatenates the named outputs; a
decode failure anywhere is `none` because the single try/catch in the
source aborts the whole batch. -/
def collectAll : List (List Char × List Nat) → Option (List NamedScript)
  | [] => some []
  | f :: fs =>
    match extractJsFromHyp f.2 with
    | none => none
    | some scripts =>
      match collectAll fs with
      | none => none
      | some rest => some (entriesOfFile f.1 scripts ++ rest)

/-- Local wall-clock components as displayed by `getTimestamp` (the month
is already 1-based). -/
structure Clock where
  year : Nat
  month : Nat
  day : Nat
  hour : Nat
  minute : Nat
  second : Nat
deriving DecidableEq, Repr

/-- `String(n).padStart(2, '0')`. -/
def pad2 (n : Nat) : List Char :=
  let ds := Nat.toDigits 10 n
  if ds.length < 2 then '0' :: ds else ds

/-- The timestamp `YYYY-MM-DD_HH-MM-SS` built by `getTimestamp`. -/
def getTimestamp (c : Clock) : List Char :=
  Nat.toDigits 10 c.year ++ '-' :: (pad2 c.month ++ '-' :: (pad2 c.day ++
    '_' :: (pad2 c.hour ++ '-' :: (pad2 c.minute ++ '-' :: pad2 c.second))))

/-- The caller-visible result of one `processFiles` run. -/
inductive Outcome where
  | noFiles : Outcome
  | decodeError : Outcome
  | noScripts : Outcome
  | single : List Char → List Char → Outcome
  | zipped : List Char → List NamedScript → Outcome
deriving DecidableEq, Repr

/-- The batch orchestrator `processFiles`: no files is reported directly; a
decode failure aborts the batch (single try/catch); with outputs, exactly
one file and one script triggers the direct download, and every other case
bundles all outputs into `hyp-scripts_<timestamp>.zip`. -/
def processFiles (files : List (List Char × List Nat)) (clk : Clock) : Outcome :=
  match files with
  | [] => Outcome.noFiles
  | f :: fs =>
    match collectAll (f :: fs) with
    | none => Outcome.decodeError
    | some allScripts =>
      match allScripts with
      | [] => Outcome.noScripts
      | s :: rest =>
        if (f :: fs).length = 1 ∧ rest = [] then Outcome.single s.name s.content
        else Outcome.zipped ("hyp-scripts_".data ++ getTimestamp clk ++ ".zip".data) allScripts

/-- Modelled from the spec: the output-name formula as §4.2 words it,
`{sanitize(containerName without ".hyp")}_{sanitize(scriptName without
".js")}.js`, with the sanitizer applied to the script name after the
`.js` suffix is stripped.  Kept separate from `uniqueName` (the code's
formula) for comparison. -/
def specOutputName (containerName scriptName : List Char) : List Char :=
  cleanFilename (stripSuffixCI hypSuffix containerName) ++
    '_' :: (cleanFilename (stripSuffixCI jsSuffix scriptName) ++ jsSuffix)

/-! ### Invariants of sanitized names -/

/-- Bounded digit runs: `noLongFrom k s` holds when, given that `k`
consecutive digits immediately precede `s`, no run of 8 or more consecutive
digits occurs. -/
def noLongFrom : Nat → List Char → Bool
  | _, [] => true
  | k, c :: cs =>
    if c.isDigit then decide (k + 1 ≤ 7) && noLongFrom (k + 1) cs else noLongFrom 0 cs

/-- No two adjacent underscores. -/
def noDouble : List Char → Bool
  | [] => true
  | [_] => true
  | a :: b :: l => !(a == '_' && b == '_') && noDouble (b :: l)

/-- Whether a list starts with an underscore. -/
def headUnd : List Char → Bool
  | [] => false
  | c :: _ => c == '_'

/-! ### Concrete inputs for witnesses and counterexamples -/

/-- The UTF-8 bytes of an ASCII string. -/
def strBytes (s : String) : List Nat := s.data.map Char.toNat

/-- Header declaring one script of size 5 (used with only 2 payload
bytes). -/
def hdrC1 : List Nat :=
  strBytes "\x7b\"assets\":[\x7b\"type\":\"script\",\"url\":\"a.js\",\"size\":5\x7d]\x7d"

/-- A container whose single script asset declares 5 bytes while only 2
remain after the header. -/
def bufC1 : List Nat := u32le hdrC1.length ++ hdrC1 ++ strBytes "hi"

/-- Header declaring one script of size 1. -/
def hdrC2 : List Nat :=
  strBytes "\x7b\"assets\":[\x7b\"type\":\"script\",\"url\":\"b.js\",\"size\":1\x7d]\x7d"

/-- A container whose single script payload is the invalid UTF-8 byte
0xFF. -/
def bufC2 : List Nat := u32le hdrC2.length ++ hdrC2 ++ [0xFF]

/-- A 17-byte buffer whose declared header size is 1000: far shorter than
`4 + headerSize`, yet the remaining 13 bytes form a complete header. -/
def bufC3 : List Nat := u32le 1000 ++ strBytes "\x7b\"assets\":[]\x7d"

/-- Header declaring one script `x.js` of size 1. -/
def hdrGood : List Nat :=
  strBytes "\x7b\"assets\":[\x7b\"type\":\"script\",\"url\":\"x.js\",\"size\":1\x7d]\x7d"

/-- A well-formed container with one script `x.js` whose content is `q`. -/
def bufGood : List Nat := buildContainer hdrGood [strBytes "q"]

/-- Header for the round-trip witness: one script `a.js` of size 2. -/
def hdrC5 : List Nat :=
  strBytes "\x7b\"assets\":[\x7b\"type\":\"script\",\"url\":\"a.js\",\"size\":2\x7d]\x7d"

/-- The descriptor list `hdrC5` parses to. -/
def assetsC5 : List AssetInfo := [⟨"script".data, "a.js".data, 2⟩]

/-- Header interleaving a non-script asset between two scripts. -/
def hdrC6 : List Nat :=
  strBytes ("\x7b\"assets\":[\x7b\"type\":\"script\",\"url\":\"a.js\",\"size\":1\x7d," ++
    "\x7b\"type\":\"image\",\"url\":\"i.png\",\"size\":2\x7d," ++
    "\x7b\"type\":\"script\",\"url\":\"b.js\",\"size\":1\x7d]\x7d")

/-- The descriptor list `hdrC6` parses to. -/
def assetsC6 : List AssetInfo :=
  [⟨"script".data, "a.js".data, 1⟩, ⟨"image".data, "i.png".data, 2⟩,
    ⟨"script".data, "b.js".data, 1⟩]

/-- Header whose script url basename contains an 8-digit run before
`.js`. -/
def hdrC7 : List Nat :=
  strBytes "\x7b\"assets\":[\x7b\"type\":\"script\",\"url\":\"a_12345678.js\",\"size\":1\x7d]\x7d"

/-- A container whose script is named `a_12345678.js` with content `x`. -/
def bufC7 : List Nat := buildContainer hdrC7 [strBytes "x"]

/-- Header whose script url basename is a pure 8-digit run before `.js`. -/
def hdrC10 : List Nat :=
  strBytes "\x7b\"assets\":[\x7b\"type\":\"script\",\"url\":\"87654321.js\",\"size\":1\x7d]\x7d"

/-- A container whose script name sanitizes to `.js`. -/
def bufC10 : List Nat := buildContainer hdrC10 [strBytes "x"]

/-- A fixed clock for concrete orchestrator runs. -/
def clk0 : Clock := ⟨2026, 1, 2, 3, 4, 5⟩

/-- A two-container batch for the archive decision witness. -/
def twoFiles : List (List Char × List Nat) :=
  [("a.hyp".data, bufGood), ("b.hyp".data, bufGood)]

/-- The rows `twoFiles` accumulates. -/
def allTwo : List NamedScript :=
  [⟨"a_x.js".data, "q".data⟩, ⟨"b_x.js".data, "q".data⟩]


/-! ### One-step unfolding lemmas for the sanitizer passes -/

/-- Unfolding `collapseWs` at a lone whitespace character. -/
theorem collapseWs_single_sp (a : Char) (h : isJsSpace a = true) :
    collapseWs [a] = ['_'] := by
  conv_lhs => rw [collapseWs.eq_def]
  simp [h]

/-- Unfolding `collapseWs` inside a whitespace run. -/
theorem collapseWs_cons_sp_sp (a b : Char) (cs : List Char)
    (ha : isJsSpace a = true) (hb : isJsSpace b = true) :
    collapseWs (a :: b :: cs) = collapseWs (b :: cs) := by
  conv_lhs => rw [collapseWs.eq_def]
  simp [ha, hb]

/-- Unfolding `collapseWs` at the end of a whitespace run. -/
theorem collapseWs_cons_sp_ns (a b : Char) (cs : List Char)
    (ha : isJsSpace a = true) (hb : isJsSpace b = false) :
    collapseWs (a :: b :: cs) = '_' :: collapseWs (b :: cs) := by
  conv_lhs => rw [collapseWs.eq_def]
  simp [ha, hb]

/-- Unfolding `collapseWs` at a non-whitespace character. -/
theorem collapseWs_cons_ns (a : Char) (cs : List Char) (h : isJsSpace a = false) :
    collapseWs (a :: cs) = a :: collapseWs cs := by
  conv_lhs => rw [collapseWs.eq_def]
  cases cs <;> simp [h]

/-- Unfolding `collapseUnd` at a lone underscore. -/
theorem collapseUnd_single_und : collapseUnd ['_'] = ['_'] := rfl

/-- Unfolding `collapseUnd` inside an underscore run. -/
theorem collapseUnd_cons_und_und (cs : List Char) :
    collapseUnd ('_' :: '_' :: cs) = collapseUnd ('_' :: cs) := by
  conv_lhs => rw [collapseUnd.eq_def]
  simp

/-- Unfolding `collapseUnd` at the end of an underscore run. -/
theorem collapseUnd_cons_und_ns (b : Char) (cs : List Char) (hb : b ≠ '_') :
    collapseUnd ('_' :: b :: cs) = '_' :: collapseUnd (b :: cs) := by
  conv_lhs => rw [collapseUnd.eq_def]
  simp [hb]

/-- Unfolding `collapseUnd` at a non-underscore character. -/
theorem collapseUnd_cons_ns (a : Char) (cs : List Char) (h : a ≠ '_') :
    collapseUnd (a :: cs) = a :: collapseUnd cs := by
  conv_lhs => rw [collapseUnd.eq_def]
  cases cs <;> simp [h]

/-- Unfolding `dropTrail` when the tail reduces to nothing. -/
theorem dropTrail_cons_of_nil (a : Char) (cs : List Char) (h : dropTrail cs = []) :
    dropTrail (a :: cs) = if a = '_' then [] else [a] := by
  conv_lhs => rw [dropTrail.eq_def]
  dsimp only
  rw [h]

/-- Unfolding `dropTrail` when the tail survives. -/
theorem dropTrail_cons_of_ne (a r : Char) (cs rs : List Char) (h : dropTrail cs = r :: rs) :
    dropTrail (a :: cs) = a :: r :: rs := by
  conv_lhs => rw [dropTrail.eq_def]
  dsimp only
  rw [h]

/-- Unfolding `stripDigitsGo` at a digit. -/
theorem stripDigitsGo_digit (run : List Char) (c : Char) (cs : List Char)
    (h : c.isDigit = true) :
    stripDigitsGo run (c :: cs) = stripDigitsGo (run ++ [c]) cs := by
  conv_lhs => rw [stripDigitsGo.eq_def]
  simp [h]

/-- Unfolding `stripDigitsGo` at a non-digit. -/
theorem stripDigitsGo_nondigit (run : List Char) (c : Char) (cs : List Char)
    (h : c.isDigit = false) :
    stripDigitsGo run (c :: cs) = emitRun run ++ c :: stripDigitsGo [] cs := by
  conv_lhs => rw [stripDigitsGo.eq_def]
  simp [h]

/-- Unfolding `noLongFrom` at a digit. -/
theorem noLongFrom_digit (k : Nat) (c : Char) (cs : List Char) (h : c.isDigit = true) :
    noLongFrom k (c :: cs) = (decide (k + 1 ≤ 7) && noLongFrom (k + 1) cs) := by
  conv_lhs => rw [noLongFrom.eq_def]
  simp [h]

/-- Unfolding `noLongFrom` at a non-digit. -/
theorem noLongFrom_nondigit (k : Nat) (c : Char) (cs : List Char) (h : c.isDigit = false) :
    noLongFrom k (c :: cs) = noLongFrom 0 cs := by
  conv_lhs => rw [noLongFrom.eq_def]
  simp [h]

/-- `noDouble` on a cons, phrased through `headUnd`. -/
theorem noDouble_cons (a : Char) (l : List Char) :
    noDouble (a :: l) = (!(a == '_' && headUnd l) && noDouble l) := by
  cases l <;> simp [noDouble, headUnd]

/-- The tail of a `noDouble` list is `noDouble`. -/
theorem noDouble_tail (a : Char) (l : List Char) (h : noDouble (a :: l) = true) :
    noDouble l = true := by
  rw [noDouble_cons, Bool.and_eq_true] at h
  exact h.2

/-! ### Properties of the sanitizer passes -/

/-- Every character of `collapseWs s` is a non-whitespace character. -/
theorem mem_collapseWs_ns : ∀ s : List Char, ∀ c ∈ collapseWs s, isJsSpace c = false := by
  intro s
  induction s with
  | nil => intro c hc; simp [collapseWs] at hc
  | cons a cs ih =>
    intro c hc
    cases ha : isJsSpace a with
    | true =>
      cases cs with
      | nil =>
        rw [collapseWs_single_sp a ha, List.mem_singleton] at hc
        subst hc; decide
      | cons b cs2 =>
        cases hb : isJsSpace b with
        | true =>
          rw [collapseWs_cons_sp_sp a b cs2 ha hb] at hc
          exact ih c hc
        | false =>
          rw [collapseWs_cons_sp_ns a b cs2 ha hb, List.mem_cons] at hc
          rcases hc with rfl | hc
          · decide
          · exact ih c hc
    | false =>
      rw [collapseWs_cons_ns a cs ha, List.mem_cons] at hc
      rcases hc with rfl | hc
      · exact ha
      · exact ih c hc

/-- `collapseWs` does not change a string without whitespace. -/
theorem collapseWs_eq_self : ∀ s : List Char, (∀ c ∈ s, isJsSpace c = false) →
    collapseWs s = s := by
  intro s
  induction s with
  | nil => intro _; rfl
  | cons a cs ih =>
    intro h
    rw [collapseWs_cons_ns a cs (h a (by simp))]
    rw [ih (fun c hc => h c (List.mem_cons_of_mem a hc))]

/-- `dropTrail s` is an initial part of `s`. -/
theorem dropTrail_decomp : ∀ s : List Char, ∃ t, s = dropTrail s ++ t := by
  intro s
  induction s with
  | nil => exact ⟨[], rfl⟩
  | cons a cs ih =>
    obtain ⟨t, ht⟩ := ih
    cases h : dropTrail cs with
    | nil =>
      by_cases ha : a = '_'
      · refine ⟨a :: cs, ?_⟩
        rw [dropTrail_cons_of_nil a cs h, if_pos ha]
        rfl
      · refine ⟨cs, ?_⟩
        rw [dropTrail_cons_of_nil a cs h, if_neg ha]
        rfl
    | cons r rs =>
      refine ⟨t, ?_⟩
      rw [h] at ht
      rw [dropTrail_cons_of_ne a r cs rs h, List.cons_append, ← ht]

/-- Characters of `dropTrail s` come from `s`. -/
theorem mem_dropTrail : ∀ (s : List Char) c, c ∈ dropTrail s → c ∈ s := by
  intro s c hc
  obtain ⟨t, ht⟩ := dropTrail_decomp s
  rw [ht]
  exact List.mem_append_left _ hc

/-- A nonempty `dropTrail s` starts where `s` starts. -/
theorem dropTrail_head : ∀ s : List Char, dropTrail s ≠ [] → (dropTrail s).head? = s.head? := by
  intro s hne
  cases s with
  | nil => simp [dropTrail] at hne
  | cons a cs =>
    cases h : dropTrail cs with
    | nil =>
      rw [dropTrail_cons_of_nil a cs h] at hne ⊢
      by_cases ha : a = '_'
      · rw [if_pos ha] at hne; exact absurd rfl hne
      · rw [if_neg ha]; rfl
    | cons r rs =>
      rw [dropTrail_cons_of_ne a r cs rs h]
      rfl

/-- `dropTrail` leaves no trailing underscore. -/
theorem dropTrail_getLast : ∀ s : List Char, (dropTrail s).getLast? ≠ some '_' := by
  intro s
  induction s with
  | nil => simp [dropTrail]
  | cons a cs ih =>
    cases h : dropTrail cs with
    | nil =>
      rw [dropTrail_cons_of_nil a cs h]
      by_cases ha : a = '_'
      · rw [if_pos ha]; simp
      · rw [if_neg ha]; simpa using ha
    | cons r rs =>
      rw [h] at ih
      rw [dropTrail_cons_of_ne a r cs rs h, List.getLast?_cons_cons]
      exact ih

/-- `dropTrail` does not change a string with no trailing underscore. -/
theorem dropTrail_eq_self : ∀ s : List Char, s.getLast? ≠ some '_' → dropTrail s = s := by
  intro s
  induction s with
  | nil => intro _; rfl
  | cons a cs ih =>
    intro h
    cases cs with
    | nil =>
      have ha : a ≠ '_' := by simpa using h
      rw [dropTrail_cons_of_nil a [] rfl, if_neg ha]
    | cons b cs2 =>
      have h2 : (b :: cs2).getLast? ≠ some '_' := by rwa [List.getLast?_cons_cons] at h
      exact dropTrail_cons_of_ne a b (b :: cs2) cs2 (ih h2)

/-- `collapseUnd` of a string starting with an underscore starts with a
single underscore. -/
theorem collapseUnd_cons_und : ∀ xs : List Char, ∃ t, collapseUnd ('_' :: xs) = '_' :: t := by
  intro xs
  induction xs with
  | nil => exact ⟨[], rfl⟩
  | cons b xs2 ih =>
    by_cases hb : b = '_'
    · subst hb
      obtain ⟨t, ht⟩ := ih
      exact ⟨t, by rw [collapseUnd_cons_und_und xs2, ht]⟩
    · exact ⟨collapseUnd (b :: xs2), collapseUnd_cons_und_ns b xs2 hb⟩

/-- Characters of `collapseUnd s` are underscores or characters of `s`. -/
theorem mem_collapseUnd : ∀ (s : List Char) c, c ∈ collapseUnd s → c = '_' ∨ c ∈ s := by
  intro s
  induction s with
  | nil => intro c hc; simp [collapseUnd] at hc
  | cons a cs ih =>
    intro c hc
    by_cases ha : a = '_'
    · subst ha
      cases cs with
      | nil =>
        rw [collapseUnd_single_und, List.mem_singleton] at hc
        exact Or.inl hc
      | cons b cs2 =>
        by_cases hb : b = '_'
        · subst hb
          rw [collapseUnd_cons_und_und cs2] at hc
          rcases ih c hc with h | h
          · exact Or.inl h
          · exact Or.inr (List.mem_cons_of_mem _ h)
        · rw [collapseUnd_cons_und_ns b cs2 hb, List.mem_cons] at hc
          rcases hc with rfl | hc
          · exact Or.inl rfl
          · rcases ih c hc with h | h
            · exact Or.inl h
            · exact Or.inr (List.mem_cons_of_mem _ h)
    · rw [collapseUnd_cons_ns a cs ha, List.mem_cons] at hc
      rcases hc with rfl | hc
      · exact Or.inr (List.mem_cons_self _ _)
      · rcases ih c hc with h | h
        · exact Or.inl h
        · exact Or.inr (List.mem_cons_of_mem _ h)

/-- `collapseUnd` never produces two adjacent underscores. -/
theorem collapseUnd_noDouble : ∀ s : List Char, noDouble (collapseUnd s) = true := by
  intro s
  induction s with
  | nil => rfl
  | cons a cs ih =>
    by_cases ha : a = '_'
    · subst ha
      cases cs with
      | nil => rfl
      | cons b cs2 =>
        by_cases hb : b = '_'
        · subst hb
          rw [collapseUnd_cons_und_und cs2]
          exact ih
        · rw [collapseUnd_cons_und_ns b cs2 hb, noDouble_cons]
          rw [collapseUnd_cons_ns b cs2 hb] at ih ⊢
          have hhd : headUnd (b :: collapseUnd cs2) = false := by
            simp [headUnd, hb]
          rw [hhd, ih]
          rfl
    · rw [collapseUnd_cons_ns a cs ha, noDouble_cons, ih]
      have hf : (a == '_') = false := by simp [ha]
      rw [hf]
      rfl

/-- `collapseUnd` does not change a string with no adjacent underscores. -/
theorem collapseUnd_eq_self : ∀ s : List Char, noDouble s = true → collapseUnd s = s := by
  intro s
  induction s with
  | nil => intro _; rfl
  | cons a cs ih =>
    intro h
    have hcs := noDouble_tail a cs h
    by_cases ha : a = '_'
    · subst ha
      cases cs with
      | nil => rfl
      | cons b cs2 =>
        have hb : b ≠ '_' := by
          intro hb
          subst hb
          rw [noDouble_cons] at h
          simp [headUnd] at h
        rw [collapseUnd_cons_und_ns b cs2 hb, ih hcs]
    · rw [collapseUnd_cons_ns a cs ha, ih hcs]

/-- Dropping leading underscores preserves `noDouble`. -/
theorem noDouble_dropWhileUnd : ∀ s : List Char, noDouble s = true →
    noDouble (s.dropWhile isUnd) = true := by
  intro s
  induction s with
  | nil => intro h; exact h
  | cons a cs ih =>
    intro h
    cases ha : isUnd a with
    | true =>
      rw [List.dropWhile_cons, ha, if_pos rfl]
      exact ih (noDouble_tail a cs h)
    | false =>
      rw [List.dropWhile_cons, ha]
      simpa using h

/-- `dropTrail` preserves `noDouble`. -/
theorem noDouble_dropTrail : ∀ s : List Char, noDouble s = true →
    noDouble (dropTrail s) = true := by
  intro s
  induction s with
  | nil => intro h; exact h
  | cons a cs ih =>
    intro h
    cases hd : dropTrail cs with
    | nil =>
      rw [dropTrail_cons_of_nil a cs hd]
      by_cases ha : a = '_'
      · rw [if_pos ha]; rfl
      · rw [if_neg ha]; rfl
    | cons r rs =>
      rw [dropTrail_cons_of_ne a r cs rs hd]
      have hne : dropTrail cs ≠ [] := by rw [hd]; simp
      have hh := dropTrail_head cs hne
      rw [hd] at hh
      cases cs with
      | nil => simp [dropTrail] at hd
      | cons b cs2 =>
        have hrb : r = b := by simpa using hh
        subst hrb
        rw [noDouble_cons]
        rw [noDouble_cons] at h
        rw [Bool.and_eq_true] at h
        have hd2 := ih h.2
        rw [hd] at hd2
        rw [hd2, Bool.and_true]
        exact h.1

/-- A short list of digits has no long digit run, whatever precedes it. -/
theorem noLongFrom_allDigits : ∀ (ds : List Char) k, ds.all Char.isDigit = true →
    k + ds.length ≤ 7 → noLongFrom k ds = true := by
  intro ds
  induction ds with
  | nil => intro k _ _; rfl
  | cons d ds2 ih =>
    intro k hall hlen
    rw [List.all_cons, Bool.and_eq_true] at hall
    simp only [List.length_cons] at hlen
    rw [noLongFrom_digit k d ds2 hall.1, Bool.and_eq_true]
    exact ⟨by simp; omega, ih (k + 1) hall.2 (by omega)⟩

/-- A short digit run followed by a non-digit and a clean tail is clean. -/
theorem noLongFrom_digits_append : ∀ (ds : List Char) k (c : Char) (t : List Char),
    ds.all Char.isDigit = true → k + ds.length ≤ 7 → c.isDigit = false →
    noLongFrom 0 t = true → noLongFrom k (ds ++ c :: t) = true := by
  intro ds
  induction ds with
  | nil =>
    intro k c t _ _ hc ht
    rw [List.nil_append, noLongFrom_nondigit k c t hc]
    exact ht
  | cons d ds2 ih =>
    intro k c t hall hlen hc ht
    rw [List.all_cons, Bool.and_eq_true] at hall
    rw [List.cons_append, noLongFrom_digit k d _ hall.1, Bool.and_eq_true]
    simp only [List.length_cons] at hlen
    exact ⟨by simp; omega, ih (k + 1) c t hall.2 (by omega) hc ht⟩

/-- The output of the digit-stripping pass has no run of 8 or more
digits. -/
theorem stripDigitsGo_noLong : ∀ (s run : List Char), run.all Char.isDigit = true →
    noLongFrom 0 (stripDigitsGo run s) = true := by
  intro s
  induction s with
  | nil =>
    intro run hall
    show noLongFrom 0 (emitRun run) = true
    unfold emitRun
    by_cases h8 : 8 ≤ run.length
    · rw [if_pos h8]; rfl
    · rw [if_neg h8]
      exact noLongFrom_allDigits run 0 hall (by omega)
  | cons c cs ih =>
    intro run hall
    cases hd : c.isDigit with
    | true =>
      rw [stripDigitsGo_digit run c cs hd]
      exact ih (run ++ [c]) (by simp [List.all_append, hall, hd])
    | false =>
      rw [stripDigitsGo_nondigit run c cs hd]
      unfold emitRun
      by_cases h8 : 8 ≤ run.length
      · rw [if_pos h8, List.nil_append, noLongFrom_nondigit 0 c _ hd]
        exact ih [] rfl
      · rw [if_neg h8]
        exact noLongFrom_digits_append run 0 c _ hall (by omega) hd (ih [] rfl)

/-- The digit-stripping pass does not change a clean string. -/
theorem stripDigitsGo_eq_self : ∀ (s run : List Char), run.all Char.isDigit = true →
    run.length ≤ 7 → noLongFrom run.length s = true → stripDigitsGo run s = run ++ s := by
  intro s
  induction s with
  | nil =>
    intro run _ h7 _
    show emitRun run = run ++ []
    unfold emitRun
    rw [if_neg (by omega), List.append_nil]
  | cons c cs ih =>
    intro run hall h7 hnl
    cases hd : c.isDigit with
    | true =>
      rw [noLongFrom_digit _ c cs hd, Bool.and_eq_true, decide_eq_true_eq] at hnl
      rw [stripDigitsGo_digit run c cs hd]
      rw [ih (run ++ [c]) (by simp [List.all_append, hall, hd]) (by simp; omega)
        (by simpa using hnl.2)]
      simp
    | false =>
      rw [noLongFrom_nondigit _ c cs hd] at hnl
      rw [stripDigitsGo_nondigit run c cs hd]
      rw [ih [] rfl (by simp) hnl]
      unfold emitRun
      rw [if_neg (by omega), List.nil_append]

/-- `stripDigits` output has no run of 8 or more digits. -/
theorem stripDigits_noLong (s : List Char) : noLongFrom 0 (stripDigits s) = true :=
  stripDigitsGo_noLong s [] rfl

/-- `stripDigits` does not change a string with no long digit run. -/
theorem stripDigits_eq_self (s : List Char) (h : noLongFrom 0 s = true) :
    stripDigits s = s := by
  have := stripDigitsGo_eq_self s [] rfl (by simp) (by simpa using h)
  simpa [stripDigits] using this

/-- Characters of `stripDigitsGo run s` come from `run` or `s`. -/
theorem mem_stripDigitsGo : ∀ (s run : List Char) c, c ∈ stripDigitsGo run s →
    c ∈ run ∨ c ∈ s := by
  intro s
  induction s with
  | nil =>
    intro run c hc
    left
    have : c ∈ emitRun run := hc
    unfold emitRun at this
    by_cases h8 : 8 ≤ run.length
    · rw [if_pos h8] at this; simp at this
    · rwa [if_neg h8] at this
  | cons a cs ih =>
    intro run c hc
    cases hd : a.isDigit with
    | true =>
      rw [stripDigitsGo_digit run a cs hd] at hc
      rcases ih (run ++ [a]) c hc with h | h
      · rw [List.mem_append, List.mem_singleton] at h
        rcases h with h | rfl
        · exact Or.inl h
        · exact Or.inr (List.mem_cons_self _ _)
      · exact Or.inr (List.mem_cons_of_mem a h)
    | false =>
      rw [stripDigitsGo_nondigit run a cs hd] at hc
      rcases List.mem_append.mp hc with h | h
      · left
        unfold emitRun at h
        by_cases h8 : 8 ≤ run.length
        · rw [if_pos h8] at h; simp at h
        · rwa [if_neg h8] at h
      · rcases List.mem_cons.mp h with rfl | h
        · exact Or.inr (List.mem_cons_self _ _)
        · rcases ih [] c h with h' | h'
          · simp at h'
          · exact Or.inr (List.mem_cons_of_mem a h')

/-- `collapseUnd` preserves bounded digit runs: it only thins underscore
runs, never bringing two digit runs together. -/
theorem collapseUnd_noLong : ∀ (s : List Char) k, noLongFrom k s = true →
    noLongFrom k (collapseUnd s) = true := by
  intro s
  induction s with
  | nil => intro k h; exact h
  | cons a cs ih =>
    intro k h
    have hund : Char.isDigit '_' = false := by decide
    by_cases ha : a = '_'
    · subst ha
      rw [noLongFrom_nondigit k '_' cs hund] at h
      cases cs with
      | nil =>
        rw [collapseUnd_single_und, noLongFrom_nondigit k '_' [] hund]
        rfl
      | cons b cs2 =>
        by_cases hb : b = '_'
        · subst hb
          rw [collapseUnd_cons_und_und cs2]
          obtain ⟨t, ht⟩ := collapseUnd_cons_und cs2
          rw [ht, noLongFrom_nondigit k '_' t hund]
          have h2 := ih 0 h
          rw [ht, noLongFrom_nondigit 0 '_' t hund] at h2
          exact h2
        · rw [collapseUnd_cons_und_ns b cs2 hb, noLongFrom_nondigit k '_' _ hund]
          exact ih 0 h
    · rw [collapseUnd_cons_ns a cs ha]
      cases hd : a.isDigit with
      | true =>
        rw [noLongFrom_digit k a cs hd, Bool.and_eq_true] at h
        rw [noLongFrom_digit k a _ hd, Bool.and_eq_true]
        exact ⟨h.1, ih (k + 1) h.2⟩
      | false =>
        rw [noLongFrom_nondigit k a cs hd] at h
        rw [noLongFrom_nondigit k a _ hd]
        exact ih 0 h

/-- Bounded digit runs restrict to an initial part of the list. -/
theorem noLongFrom_append_left : ∀ (s : List Char) k (t : List Char),
    noLongFrom k (s ++ t) = true → noLongFrom k s = true := by
  intro s
  induction s with
  | nil => intro k t _; rfl
  | cons a s2 ih =>
    intro k t h
    rw [List.cons_append] at h
    cases hd : a.isDigit with
    | true =>
      rw [noLongFrom_digit _ a _ hd, Bool.and_eq_true] at h ⊢
      exact ⟨h.1, ih (k + 1) t h.2⟩
    | false =>
      rw [noLongFrom_nondigit _ a _ hd] at h ⊢
      exact ih 0 t h

/-- Dropping leading underscores preserves bounded digit runs. -/
theorem noLongFrom_dropWhileUnd : ∀ s : List Char, noLongFrom 0 s = true →
    noLongFrom 0 (s.dropWhile isUnd) = true := by
  intro s
  induction s with
  | nil => intro h; exact h
  | cons a cs ih =>
    intro h
    cases ha : isUnd a with
    | true =>
      have ha' : a = '_' := by simpa [isUnd] using ha
      rw [List.dropWhile_cons, ha, if_pos rfl]
      apply ih
      rwa [noLongFrom_nondigit 0 a cs (by rw [ha']; decide)] at h
    | false =>
      rw [List.dropWhile_cons, ha]
      simpa using h

/-- `dropTrail` preserves bounded digit runs. -/
theorem noLongFrom_dropTrail (s : List Char) (h : noLongFrom 0 s = true) :
    noLongFrom 0 (dropTrail s) = true := by
  obtain ⟨t, ht⟩ := dropTrail_decomp s
  rw [ht] at h
  exact noLongFrom_append_left _ 0 t h

/-- The head of the list after dropping leading underscores is not an
underscore. -/
theorem dropWhileUnd_head : ∀ (s : List Char) c, (s.dropWhile isUnd).head? = some c →
    c ≠ '_' := by
  intro s
  induction s with
  | nil => intro c hc; simp at hc
  | cons a cs ih =>
    intro c hc
    cases ha : isUnd a with
    | true =>
      rw [List.dropWhile_cons, ha, if_pos rfl] at hc
      exact ih c hc
    | false =>
      rw [List.dropWhile_cons, ha] at hc
      simp only [Bool.false_eq_true, if_false, List.head?_cons, Option.some.injEq] at hc
      subst hc
      intro hc
      rw [hc] at ha
      simp [isUnd] at ha

/-- Dropping leading underscores does nothing when the head is not an
underscore. -/
theorem dropWhileUnd_eq_self : ∀ s : List Char, s.head? ≠ some '_' →
    s.dropWhile isUnd = s := by
  intro s h
  cases s with
  | nil => rfl
  | cons a cs =>
    have ha : a ≠ '_' := fun hh => h (by rw [hh]; rfl)
    rw [List.dropWhile_cons]
    have : isUnd a = false := by simp [isUnd, ha]
    rw [this]
    simp

/-! ### The four invariants of a sanitized name -/

/-- A sanitized name has no whitespace. -/
theorem cleanFilename_noSpace (s : List Char) : ∀ c ∈ cleanFilename s, isJsSpace c = false := by
  intro c hc
  have h1 := mem_dropTrail _ c hc
  have h2 : c ∈ collapseUnd (stripDigits (collapseWs s)) :=
    (List.dropWhile_sublist _).subset h1
  rcases mem_collapseUnd _ c h2 with rfl | h3
  · decide
  · rcases mem_stripDigitsGo _ [] c h3 with h4 | h4
    · simp at h4
    · exact mem_collapseWs_ns _ c h4

/-- A sanitized name has no run of 8 or more digits. -/
theorem cleanFilename_noLong (s : List Char) : noLongFrom 0 (cleanFilename s) = true := by
  apply noLongFrom_dropTrail
  apply noLongFrom_dropWhileUnd
  exact collapseUnd_noLong _ 0 (stripDigits_noLong (collapseWs s))

/-- A sanitized name has no adjacent underscores. -/
theorem cleanFilename_noDouble (s : List Char) : noDouble (cleanFilename s) = true := by
  apply noDouble_dropTrail
  apply noDouble_dropWhileUnd
  exact collapseUnd_noDouble _

/-- A sanitized name does not start with an underscore. -/
theorem cleanFilename_head (s : List Char) : (cleanFilename s).head? ≠ some '_' := by
  intro h
  have hne : cleanFilename s ≠ [] := by
    intro he
    rw [he] at h
    simp at h
  unfold cleanFilename at h hne
  have hh := dropTrail_head _ hne
  rw [hh] at h
  exact dropWhileUnd_head _ '_' h rfl

/-- A sanitized name does not end with an underscore. -/
theorem cleanFilename_last (s : List Char) : (cleanFilename s).getLast? ≠ some '_' :=
  dropTrail_getLast _

/-! ### Lemmas about the decoder and the orchestrator -/

/-- Unfolding `scanAssets` at a descriptor. -/
theorem scanAssets_cons (buffer : List Nat) (pos count : Nat) (a : AssetInfo)
    (rest : List AssetInfo) :
    scanAssets buffer pos count (a :: rest) =
      if a.type = scriptTag then
        ⟨cleanFilename (jsFilename a.url count),
          textDecode (sliceBytes buffer pos (pos + a.size))⟩ ::
        scanAssets buffer (pos + a.size) (count + 1) rest
      else scanAssets buffer (pos + a.size) count rest := rfl

/-- Unfolding `expectedScripts` at a descriptor. -/
theorem expectedScripts_cons (count : Nat) (a : AssetInfo) (as : List AssetInfo)
    (p : List Nat) (ps : List (List Nat)) :
    expectedScripts count (a :: as) (p :: ps) =
      if a.type = scriptTag then
        ⟨cleanFilename (jsFilename a.url count), textDecode p⟩ ::
          expectedScripts (count + 1) as ps
      else expectedScripts count as ps := rfl

/-- Slicing a payload out of `prefixPart ++ payload ++ rest` at the exact
offsets returns the payload. -/
theorem sliceBytes_exact (pre p rest : List Nat) :
    sliceBytes (pre ++ p ++ rest) pre.length (pre.length + p.length) = p := by
  unfold sliceBytes
  rw [List.append_assoc, List.drop_left, Nat.add_sub_cancel_left, List.take_left]

/-- The sequential payload scan of a well-formed synthetic container: when
the buffer is some prefix followed by the concatenated payloads and each
payload has its descriptor's declared size, the scan starting at the end of
the prefix returns exactly the expected scripts.  This is the cursor
arithmetic: every asset advances the cursor by its declared size, keeping
all later script slices aligned. -/
theorem scanAssets_flatten : ∀ {payloads : List (List Nat)} {assets : List AssetInfo},
    List.Forall₂ (fun (p : List Nat) (a : AssetInfo) => p.length = a.size) payloads assets →
    ∀ (pre : List Nat) (count : Nat),
    scanAssets (pre ++ payloads.flatten) pre.length count assets =
      expectedScripts count assets payloads := by
  intro payloads assets h
  induction h with
  | nil => intro pre count; rfl
  | @cons p a ps as hpa htail ih =>
    intro pre count
    rw [List.flatten_cons, scanAssets_cons]
    have hslice : sliceBytes (pre ++ (p ++ ps.flatten)) pre.length (pre.length + a.size) = p := by
      rw [← hpa, ← List.append_assoc]
      exact sliceBytes_exact pre p ps.flatten
    have hpos : pre.length + a.size = (pre ++ p).length := by
      rw [List.length_append, hpa]
    have hbuf : pre ++ (p ++ ps.flatten) = (pre ++ p) ++ ps.flatten :=
      (List.append_assoc _ _ _).symm
    rw [expectedScripts_cons]
    by_cases ht : a.type = scriptTag
    · rw [if_pos ht, if_pos ht, hslice, hpos, hbuf, ih (pre ++ p) (count + 1)]
    · rw [if_neg ht, if_neg ht, hpos, hbuf, ih (pre ++ p) count]

/-- The little-endian length bytes round-trip through `readUint32LE`. -/
theorem readUint32LE_u32le (n : Nat) (rest : List Nat) (h : n < 4294967296) :
    readUint32LE (u32le n ++ rest) = some n := by
  show some (n % 256 + n / 256 % 256 * 256 + n / 65536 % 256 * 65536 +
    n / 16777216 % 256 * 16777216) = some n
  congr 1
  omega

/-- The header slice of a synthetic container is the header bytes. -/
theorem sliceBytes_header (hb flat : List Nat) (n : Nat) :
    sliceBytes (u32le n ++ (hb ++ flat)) 4 (4 + hb.length) = hb := by
  show ((u32le n ++ (hb ++ flat)).drop 4).take (4 + hb.length - 4) = hb
  have h1 : (u32le n ++ (hb ++ flat)).drop 4 = hb ++ flat := rfl
  rw [h1, show 4 + hb.length - 4 = hb.length from by omega, List.take_left]

/-- Decoding a well-formed synthetic container: the 4-byte length prefix is
read back, the header slice is exactly the header bytes, and the payload
scan recovers the expected scripts. -/
theorem extract_build (hb : List Nat) (assets : List AssetInfo) (payloads : List (List Nat))
    (h32 : hb.length < 4294967296)
    (hdr : decodeHeader (textDecode hb) = some assets)
    (hsz : List.Forall₂ (fun (p : List Nat) (a : AssetInfo) => p.length = a.size)
      payloads assets) :
    extractJsFromHyp (buildContainer hb payloads) = some (expectedScripts 0 assets payloads) := by
  unfold extractJsFromHyp buildContainer
  rw [List.append_assoc]
  rw [readUint32LE_u32le hb.length (hb ++ payloads.flatten) h32]
  dsimp only
  rw [sliceBytes_header hb payloads.flatten hb.length, hdr]
  dsimp only
  have hpos : (4 : Nat) + hb.length = (u32le hb.length ++ hb).length := by
    rw [List.length_append]
    rfl
  rw [hpos, ← List.append_assoc, scanAssets_flatten hsz (u32le hb.length ++ hb) 0]

/-- Unfolding `collectAll` at the first container. -/
theorem collectAll_cons (f : List Char × List Nat) (fs : List (List Char × List Nat)) :
    collectAll (f :: fs) =
      match extractJsFromHyp f.2 with
      | none => none
      | some scripts =>
        match collectAll fs with
        | none => none
        | some rest => some (entriesOfFile f.1 scripts ++ rest) := rfl

/-- A single failing container makes the whole accumulation fail. -/
theorem collectAll_none : ∀ (files : List (List Char × List Nat)) f, f ∈ files →
    extractJsFromHyp f.2 = none → collectAll files = none := by
  intro files
  induction files with
  | nil => intro f hf; simp at hf
  | cons g fs ih =>
    intro f hf hx
    rw [collectAll_cons]
    rcases List.mem_cons.mp hf with rfl | hf
    · rw [hx]
    · rw [ih f hf hx]
      cases extractJsFromHyp g.2 <;> rfl

/-- Unfolding `processFiles` at a nonempty batch. -/
theorem processFiles_cons (f : List Char × List Nat) (fs : List (List Char × List Nat))
    (clk : Clock) :
    processFiles (f :: fs) clk =
      match collectAll (f :: fs) with
      | none => Outcome.decodeError
      | some allScripts =>
        match allScripts with
        | [] => Outcome.noScripts
        | s :: rest =>
          if (f :: fs).length = 1 ∧ rest = [] then Outcome.single s.name s.content
          else Outcome.zipped ("hyp-scripts_".data ++ getTimestamp clk ++ ".zip".data)
            allScripts := rfl

/-! ### Claim C1 — truncated payloads -/

/-- C1 counterexample: a container whose single script asset declares
size 5 while only 2 payload bytes remain after the header.  The claim says
the decoder must fail (`TruncatedAsset`) and never return content shorter
than the declared size; the code instead succeeds and returns the 2
available bytes. -/
theorem C1_cex :
    decodeHeader (textDecode hdrC1) = some [⟨"script".data, "a.js".data, 5⟩] ∧
    bufC1.length = 4 + hdrC1.length + 2 ∧
    extractJsFromHyp bufC1 = some [⟨"a.js".data, "hi".data⟩] ∧
    ("hi".data).length < 5 :=
  ⟨rfl, rfl, rfl, by decide⟩

/-- C1 (amended): the decoder performs no truncation check at all.  Once
the header parses, decoding always succeeds, whatever the declared sizes;
and each payload slice clamps to the bytes actually available, so the
decoder never reads past the buffer but can return content shorter than
the declared size. -/
theorem C1_thm :
    (∀ (buffer : List Nat) (headerSize : Nat) (assets : List AssetInfo),
      readUint32LE buffer = some headerSize →
      decodeHeader (textDecode (sliceBytes buffer 4 (4 + headerSize))) = some assets →
      extractJsFromHyp buffer = some (scanAssets buffer (4 + headerSize) 0 assets))
    ∧ (∀ (buf : List Nat) (start size : Nat),
      (sliceBytes buf start (start + size)).length = min size (buf.length - start)) := by
  constructor
  · intro buffer headerSize assets h1 h2
    unfold extractJsFromHyp
    rw [h1]
    dsimp only
    rw [h2]
  · intro buf start size
    unfold sliceBytes
    rw [List.length_take, List.length_drop]
    congr 1
    omega

/-- C1 witness: both halves of `C1_thm` applied to the truncated container
`bufC1`. -/
theorem C1_witness :
    extractJsFromHyp bufC1 =
      some (scanAssets bufC1 (4 + hdrC1.length) 0 [⟨"script".data, "a.js".data, 5⟩]) ∧
    (sliceBytes bufC1 (4 + hdrC1.length) (4 + hdrC1.length + 5)).length =
      min 5 (bufC1.length - (4 + hdrC1.length)) :=
  ⟨C1_thm.1 bufC1 hdrC1.length [⟨"script".data, "a.js".data, 5⟩] rfl rfl,
   C1_thm.2 bufC1 (4 + hdrC1.length) 5⟩

/-! ### Claim C2 — invalid UTF-8 payloads -/

/-- C2 counterexample: a script asset whose payload is the invalid UTF-8
byte `0xFF`.  The claim says the decoder skips such an asset; the code
instead emits an `ExtractedScript` whose content is the U+FFFD replacement
character. -/
theorem C2_cex :
    utf8Decode [0xFF] = [repl] ∧
    extractJsFromHyp bufC2 = some [⟨"b.js".data, [repl]⟩] :=
  ⟨rfl, rfl⟩

/-- C2 (amended): the decoder never skips an asset for encoding reasons —
`TextDecoder` is non-fatal, so every script-typed asset contributes exactly
one `ExtractedScript` (invalid bytes become replacement characters), and
the scan always continues through the remaining assets. -/
theorem C2_thm : ∀ (buffer : List Nat) (pos count : Nat) (assets : List AssetInfo),
    (scanAssets buffer pos count assets).length =
      (assets.filter (fun a => decide (a.type = scriptTag))).length := by
  intro buffer pos count assets
  induction assets generalizing pos count with
  | nil => rfl
  | cons a rest ih =>
    rw [scanAssets_cons]
    by_cases ht : a.type = scriptTag
    · rw [if_pos ht]
      simp [List.filter_cons, ht, ih]
    · rw [if_neg ht]
      rw [ih]
      simp [List.filter_cons, ht]

/-! ### Claim C3 — buffers shorter than `4 + headerSize` -/

/-- C3 counterexample: a 17-byte buffer declaring `headerSize = 1000`.  The
claim says any buffer shorter than `4 + headerSize` must fail; here the
clamped header slice is the complete document `{"assets":[]}`, so the
decoder succeeds with an empty script list. -/
theorem C3_cex :
    readUint32LE bufC3 = some 1000 ∧ bufC3.length = 17 ∧ (17 : Nat) < 4 + 1000 ∧
    extractJsFromHyp bufC3 = some [] :=
  ⟨rfl, rfl, by decide, rfl⟩

/-- C3 (amended): the code never compares the buffer length against
`4 + headerSize`.  The header slice clamps to the available bytes and the
decoder fails exactly when that clamped slice fails to parse as a header —
independent of the declared length. -/
theorem C3_thm : ∀ (buffer : List Nat) (headerSize : Nat),
    readUint32LE buffer = some headerSize →
    (extractJsFromHyp buffer = none ↔
      decodeHeader (textDecode (sliceBytes buffer 4 (4 + headerSize))) = none) := by
  intro buffer headerSize h
  unfold extractJsFromHyp
  rw [h]
  dsimp only
  cases decodeHeader (textDecode (sliceBytes buffer 4 (4 + headerSize))) <;> simp

/-- C3 witness: `C3_thm` applied to the short buffer `bufC3`. -/
theorem C3_witness :
    extractJsFromHyp bufC3 = none ↔
      decodeHeader (textDecode (sliceBytes bufC3 4 (4 + 1000))) = none :=
  C3_thm bufC3 1000 rfl

/-! ### Claim C4 — one bad container and the batch -/

/-- C4 counterexample: a batch of a good container (which alone yields one
script) followed by an undecodable one.  The claim says the failure is
reported per-container and the good container's script still appears; the
code's single try/catch instead aborts the whole batch with no outputs. -/
theorem C4_cex :
    extractJsFromHyp bufGood = some [⟨"x.js".data, "q".data⟩] ∧
    extractJsFromHyp [0] = none ∧
    processFiles [("g.hyp".data, bufGood), ("b.hyp".data, [0])] clk0 = Outcome.decodeError :=
  ⟨rfl, rfl, rfl⟩

/-- C4 (amended): a decode failure of any container in the batch aborts the
whole run — `processFiles` reports a batch-level error and produces no
outputs at all, not even for containers already decoded. -/
theorem C4_thm : ∀ (files : List (List Char × List Nat)) (clk : Clock) f,
    f ∈ files → extractJsFromHyp f.2 = none →
    processFiles files clk = Outcome.decodeError := by
  intro files clk f hf hx
  cases files with
  | nil => simp at hf
  | cons g fs =>
    rw [processFiles_cons, collectAll_none (g :: fs) f hf hx]

/-- C4 witness: `C4_thm` applied to the two-container batch with the bad
1-byte container. -/
theorem C4_witness :
    processFiles [("g.hyp".data, bufGood), ("b.hyp".data, [0])] clk0 = Outcome.decodeError :=
  C4_thm [("g.hyp".data, bufGood), ("b.hyp".data, [0])] clk0 ("b.hyp".data, [0])
    (List.mem_cons_of_mem _ (List.mem_cons_self _ _)) rfl

/-! ### Claim C5 — round-trip on well-formed containers -/

/-- C5: round-trip.  For every synthetic container made of a 4-byte
little-endian header length, header bytes whose `assets` field lists the
descriptors, and payloads of exactly the declared sizes in header order,
decoding recovers, for every script-typed asset, content equal to the
`TextDecoder` UTF-8 decoding of that asset's original payload bytes (and
the name derived from its url basename). -/
theorem C5_thm (hb : List Nat) (assets : List AssetInfo) (payloads : List (List Nat))
    (h32 : hb.length < 4294967296)
    (hdr : decodeHeader (textDecode hb) = some assets)
    (hsz : List.Forall₂ (fun (p : List Nat) (a : AssetInfo) => p.length = a.size)
      payloads assets) :
    extractJsFromHyp (buildContainer hb payloads) =
      some (expectedScripts 0 assets payloads) :=
  extract_build hb assets payloads h32 hdr hsz

/-- C5 witness: a container with one script `a.js` of size 2 and payload
`hi` decodes to exactly that script with content `hi`. -/
theorem C5_witness :
    extractJsFromHyp (buildContainer hdrC5 [strBytes "hi"]) =
      some [⟨"a.js".data, "hi".data⟩] :=
  Eq.trans (C5_thm hdrC5 assetsC5 [strBytes "hi"] (by decide) rfl
    (List.Forall₂.cons rfl List.Forall₂.nil)) rfl

/-! ### Claim C6 — non-script assets advance the cursor -/

/-- C6: an asset whose type tag is not exactly `script` contributes nothing
and advances the cursor by exactly its declared size (first half); in
particular, a non-script asset interleaved between two script assets leaves
both scripts sliced at their own payloads (second half). -/
theorem C6_thm :
    (∀ (buffer : List Nat) (pos count : Nat) (a : AssetInfo) (rest : List AssetInfo),
      a.type ≠ scriptTag →
      scanAssets buffer pos count (a :: rest) = scanAssets buffer (pos + a.size) count rest)
    ∧ (∀ (hb : List Nat) (a1 am a2 : AssetInfo) (p1 pm p2 : List Nat),
      hb.length < 4294967296 →
      decodeHeader (textDecode hb) = some [a1, am, a2] →
      a1.type = scriptTag → am.type ≠ scriptTag → a2.type = scriptTag →
      p1.length = a1.size → pm.length = am.size → p2.length = a2.size →
      extractJsFromHyp (buildContainer hb [p1, pm, p2]) =
        some [⟨cleanFilename (jsFilename a1.url 0), textDecode p1⟩,
              ⟨cleanFilename (jsFilename a2.url 1), textDecode p2⟩]) := by
  constructor
  · intro buffer pos count a rest ht
    rw [scanAssets_cons, if_neg ht]
  · intro hb a1 am a2 p1 pm p2 h32 hdr ht1 htm ht2 hp1 hpm hp2
    rw [extract_build hb [a1, am, a2] [p1, pm, p2] h32 hdr
      (List.Forall₂.cons hp1 (List.Forall₂.cons hpm (List.Forall₂.cons hp2 List.Forall₂.nil)))]
    rw [expectedScripts_cons, if_pos ht1, expectedScripts_cons, if_neg htm,
      expectedScripts_cons, if_pos ht2]
    rfl

set_option maxRecDepth 8000 in
/-- C6 witness: both halves of `C6_thm` on concrete data — a lone `image`
descriptor of size 3 advances the cursor from 0 to 3, and the container
with payloads `Q`, `yz`, `W` yields exactly the two scripts `Q` and `W`. -/
theorem C6_witness :
    scanAssets [] 0 0 [⟨"image".data, "i.png".data, 3⟩] = scanAssets [] 3 0 [] ∧
    extractJsFromHyp (buildContainer hdrC6 [strBytes "Q", strBytes "yz", strBytes "W"]) =
      some [⟨"a.js".data, "Q".data⟩, ⟨"b.js".data, "W".data⟩] := by
  constructor
  · exact C6_thm.1 [] 0 0 ⟨"image".data, "i.png".data, 3⟩ [] (by decide)
  · exact Eq.trans (C6_thm.2 hdrC6 ⟨"script".data, "a.js".data, 1⟩
      ⟨"image".data, "i.png".data, 2⟩ ⟨"script".data, "b.js".data, 1⟩
      (strBytes "Q") (strBytes "yz") (strBytes "W")
      (by decide) rfl rfl (by decide) rfl rfl rfl rfl) rfl

/-! ### Claim C7 — output-name formula -/

/-- C7 counterexample: container `c.hyp` with a script whose url basename
is `a_12345678.js`.  The decoder sanitizes the basename first (giving
`a_.js`), and the orchestrator then strips `.js` without re-sanitizing, so
the produced name is `c_a_.js`; the claim's formula — sanitize applied to
the script name after stripping `.js` — gives `c_a.js` instead. -/
theorem C7_cex :
    extractJsFromHyp bufC7 = some [⟨"a_.js".data, "x".data⟩] ∧
    processFiles [("c.hyp".data, bufC7)] clk0 = Outcome.single "c_a_.js".data "x".data ∧
    specOutputName "c.hyp".data "a_.js".data = "c_a.js".data ∧
    ("c_a_.js".data : List Char) ≠ "c_a.js".data :=
  ⟨rfl, rfl, rfl, by decide⟩

/-- C7 (amended): the output name is the sanitized container name without
`.hyp`, an underscore, the script name without `.js`, and `.js` — where the
script name was already sanitized by the decoder before the `.js` suffix is
stripped, and no sanitization happens after the strip. -/
theorem C7_thm : ∀ (fname : List Char) (hb : List Nat) (assets : List AssetInfo)
    (payloads : List (List Nat)),
    hb.length < 4294967296 →
    decodeHeader (textDecode hb) = some assets →
    List.Forall₂ (fun (p : List Nat) (a : AssetInfo) => p.length = a.size) payloads assets →
    collectAll [(fname, buildContainer hb payloads)] =
      some ((expectedScripts 0 assets payloads).map (fun s =>
        ⟨cleanFilename (stripSuffixCI hypSuffix fname) ++
          '_' :: (stripSuffixCI jsSuffix s.name ++ jsSuffix), s.content⟩)) := by
  intro fname hb assets payloads h32 hdr hsz
  rw [collectAll_cons]
  dsimp only
  rw [extract_build hb assets payloads h32 hdr hsz]
  dsimp only [collectAll]
  rw [List.append_nil]
  rfl

/-- C7 witness: `C7_thm` on the `c.hyp`/`a_12345678.js` container, whose
produced name evaluates to `c_a_.js`. -/
theorem C7_witness :
    collectAll [("c.hyp".data, buildContainer hdrC7 [strBytes "x"])] =
      some [⟨"c_a_.js".data, "x".data⟩] :=
  Eq.trans (C7_thm "c.hyp".data hdrC7 [⟨"script".data, "a_12345678.js".data, 1⟩]
    [strBytes "x"] (by decide) rfl (List.Forall₂.cons rfl List.Forall₂.nil)) rfl

/-! ### Claim C8 — single-file versus archive decision -/

/-- C8: with every container decoded and at least one script found, the
single-file download is taken exactly when one container was supplied and
one script was extracted in total; in every other case all outputs are
bundled into one archive named `hyp-scripts_<timestamp>.zip`, which
contains the generation timestamp. -/
theorem C8_thm : ∀ (files : List (List Char × List Nat)) (clk : Clock)
    (allScripts : List NamedScript),
    collectAll files = some allScripts → allScripts ≠ [] →
    ((files.length = 1 ∧ allScripts.length = 1) →
      ∃ s, allScripts = [s] ∧ processFiles files clk = Outcome.single s.name s.content)
    ∧ (¬(files.length = 1 ∧ allScripts.length = 1) →
      processFiles files clk =
        Outcome.zipped ("hyp-scripts_".data ++ getTimestamp clk ++ ".zip".data) allScripts) := by
  intro files clk allScripts hC hne
  cases files with
  | nil =>
    have h0 : ([] : List NamedScript) = allScripts := Option.some.inj hC
    exact absurd h0.symm hne
  | cons f fs =>
    rw [processFiles_cons, hC]
    cases allScripts with
    | nil => exact absurd rfl hne
    | cons s rest =>
      dsimp only
      constructor
      · intro h1
        have hr : rest = [] := by
          have h2 := h1.2
          simpa using h2
        subst hr
        rw [if_pos ⟨h1.1, rfl⟩]
        exact ⟨s, rfl, rfl⟩
      · intro h2
        rw [if_neg ?hcond]
        case hcond =>
          intro hcond
          exact h2 ⟨hcond.1, by simp [hcond.2]⟩

/-- C8 witness: `C8_thm` on a two-container batch — the archive branch is
taken and the archive name carries the timestamp. -/
theorem C8_witness :
    processFiles twoFiles clk0 =
      Outcome.zipped ("hyp-scripts_".data ++ getTimestamp clk0 ++ ".zip".data) allTwo :=
  (C8_thm twoFiles clk0 allTwo rfl (by decide)).2 (by decide)

/-! ### Claim C9 — idempotence of the sanitizer -/

/-- C9: the filename sanitizer is idempotent — sanitizing an
already-sanitized name is a no-op. -/
theorem C9_thm : ∀ s : List Char, cleanFilename (cleanFilename s) = cleanFilename s := by
  intro s
  have hns := cleanFilename_noSpace s
  have hnl := cleanFilename_noLong s
  have hnd := cleanFilename_noDouble s
  have hhd := cleanFilename_head s
  have hlast := cleanFilename_last s
  show dropTrail ((collapseUnd (stripDigits (collapseWs (cleanFilename s)))).dropWhile isUnd) =
    cleanFilename s
  rw [collapseWs_eq_self _ hns, stripDigits_eq_self _ hnl, collapseUnd_eq_self _ hnd,
    dropWhileUnd_eq_self _ hhd, dropTrail_eq_self _ hlast]

/-! ### Claim C10 — degenerate sanitized names -/

/-- C10: the sanitizer maps some non-empty names (pure 8-digit runs, or
whitespace/underscore/long-digit-run mixtures) to the empty string, so
orchestrator output names degenerate to `_<script>.js`, `<base>_.js`, and
even `_.js`. -/
theorem C10_thm :
    cleanFilename "12345678".data = [] ∧
    cleanFilename " _ 12345678 _ ".data = [] ∧
    processFiles [("12345678.hyp".data, bufGood)] clk0 = Outcome.single "_x.js".data "q".data ∧
    processFiles [("c.hyp".data, bufC10)] clk0 = Outcome.single "c_.js".data "x".data ∧
    processFiles [("12345678.hyp".data, bufC10)] clk0 = Outcome.single "_.js".data "x".data :=
  ⟨rfl, rfl, rfl, rfl, rfl⟩
